import Mathlib

/-!
Verification of the chemical-potential analysis core of pycdt
(`pycdt/core/chemical_potentials.py`).

The Python source delegates phase-diagram construction and the per-facet
linear solves to the external pymatgen library; those collaborators are
treated as oracles (function parameters) here.  Everything that the source
itself computes — the phase partitioner `diff_bulk_sub_phases`, the
stability classification at the start of `analyze_GGA_chempots`, the dilute
substitutional merge with its overdetermination check, the entry-separation
loop of `read_phase_diagram_and_chempots`, and the fake-elemental-entry
insertion — is embedded as executable Lean functions below, translated
statement by statement from the source.

Python dictionaries are embedded as association lists with insertion-order
semantics: assignment to an existing key replaces the value in place,
assignment to a fresh key appends at the end.  Python floats are embedded
as rationals.
-/

namespace PyCDT

/-- Association-list lookup, mirroring Python `d[k]` / `k in d`. -/
def alookup {α : Type} (k : String) : List (String × α) → Option α
  | [] => none
  | (k', v) :: rest => if k' = k then some v else alookup k rest

/-- Association-list assignment, mirroring Python `d[k] = v`:
replace in place when the key is present, append when absent. -/
def upsert {α : Type} (k : String) (v : α) : List (String × α) → List (String × α)
  | [] => [(k, v)]
  | (k', v') :: rest => if k' = k then (k, v) :: rest else (k', v') :: upsert k v rest

/-- The keys of an association list (Python `d.keys()`; construction below
keeps keys distinct exactly as a Python dict does). -/
def keysOf {α : Type} (t : List (String × α)) : List String :=
  t.map (·.1)

/-- Contiguous-substring test on character lists (Python `needle in hay`
for strings). -/
def infixOfChars (needle : List Char) : List Char → Bool
  | [] => needle.isEmpty
  | c :: rest => needle.isPrefixOf (c :: rest) || infixOfChars needle rest

/-- The test performed per phase by `diff_bulk_sub_phases`: Python first
checks truthiness of `sub_el` (`None` and the empty string are falsy) and
then `sub_el in face`, a substring test on the phase label. -/
def subMatch : Option String → String → Bool
  | none, _ => false
  | some s, face => if s = "" then false else infixOfChars s.toList face.toList

/-- The phases of a facet that do not contain the substitutional element
(the list `blk` built by the loop in `diff_bulk_sub_phases`,
`chemical_potentials.py` lines 64-73).  Python's `sub_el in face` is
substring containment on the phase label. -/
def bulkPhases (face_list : List String) (sub_el : Option String) : List String :=
  face_list.filter (fun face => !(subMatch sub_el face))

/-- The phases of a facet that do contain the substitutional element
(the list `sub_spcs` of `diff_bulk_sub_phases`). -/
def subPhases (face_list : List String) (sub_el : Option String) : List String :=
  face_list.filter (fun face => subMatch sub_el face)

/-- Lexicographic comparison of character lists by code point, the order
Python uses to sort strings. -/
def lexLeB : List Char → List Char → Bool
  | [], _ => true
  | _ :: _, [] => false
  | a :: as, b :: bs =>
    if a.toNat < b.toNat then true
    else if b.toNat < a.toNat then false
    else lexLeB as bs

/-- String comparison by code points (Python string `<=`). -/
def strLe (a b : String) : Prop :=
  lexLeB a.toList b.toList = true

instance : DecidableRel strLe := fun a b => by
  unfold strLe
  infer_instance

/-- Lexicographic ascending sort of phase labels (Python `list.sort()`). -/
def sortStr (l : List String) : List String :=
  l.insertionSort strLe

/-- Dash-join of a list of strings (Python `'-'.join(l)`). -/
def joinDash : List String → String
  | [] => ""
  | [s] => s
  | s :: rest => s ++ "-" ++ joinDash rest

/-- `ChemPotAnalyzer.diff_bulk_sub_phases` (`chemical_potentials.py`
lines 59-78): partition a facet's phase list into bulk-only and
substitutional-containing phases, sort both, and dash-join them into
canonical labels.  Returns `(blk, blknom, subnom)`. -/
def diff_bulk_sub_phases (face_list : List String) (sub_el : Option String) :
    List String × String × String :=
  let blk := sortStr (bulkPhases face_list sub_el)
  let sub_spcs := sortStr (subPhases face_list sub_el)
  (blk, joinDash blk, joinDash sub_spcs)

/-- Split a character list at every occurrence of `c`
(Python `s.split(c)` for a one-character separator). -/
def splitOnChar (c : Char) : List Char → List (List Char)
  | [] => [[]]
  | x :: xs =>
    let r := splitOnChar c xs
    if x = c then [] :: r
    else
      match r with
      | [] => [[x]]
      | h :: t => (x :: h) :: t

/-- Python `key.split('-')`, applied to every facet key before
partitioning. -/
def pySplitDash (s : String) : List String :=
  (splitOnChar '-' s.toList).map List.asString

theorem lexLeB_total : ∀ a b : List Char, lexLeB a b = true ∨ lexLeB b a = true
  | [], _ => Or.inl rfl
  | _ :: _, [] => Or.inr rfl
  | a :: as, b :: bs => by
    by_cases h1 : a.toNat < b.toNat
    · left; simp [lexLeB, h1]
    · by_cases h2 : b.toNat < a.toNat
      · right; simp [lexLeB, h2, h1]
      · rcases lexLeB_total as bs with h | h
        · left; simp [lexLeB, h1, h2, h]
        · right; simp [lexLeB, h1, h2, h]

theorem lexLeB_trans :
    ∀ a b c : List Char, lexLeB a b = true → lexLeB b c = true → lexLeB a c = true
  | [], _, _, _, _ => rfl
  | _ :: _, [], _, h1, _ => by simp [lexLeB] at h1
  | _ :: _, _ :: _, [], _, h2 => by simp [lexLeB] at h2
  | a :: as, b :: bs, c :: cs, h1, h2 => by
    simp only [lexLeB] at h1 h2 ⊢
    rcases Nat.lt_trichotomy a.toNat b.toNat with hab | hab | hab
    · rcases Nat.lt_trichotomy b.toNat c.toNat with hbc | hbc | hbc
      · rw [if_pos (Nat.lt_trans hab hbc)]
      · rw [if_pos (show a.toNat < c.toNat by omega)]
      · rw [if_neg (by omega), if_pos (by omega)] at h2; simp at h2
    · rcases Nat.lt_trichotomy b.toNat c.toNat with hbc | hbc | hbc
      · rw [if_pos (show a.toNat < c.toNat by omega)]
      · rw [if_neg (by omega), if_neg (by omega)]
        rw [if_neg (by omega), if_neg (by omega)] at h1
        rw [if_neg (by omega), if_neg (by omega)] at h2
        exact lexLeB_trans as bs cs h1 h2
      · rw [if_neg (by omega), if_pos (by omega)] at h2; simp at h2
    · rw [if_neg (by omega), if_pos (by omega)] at h1; simp at h1

theorem lexLeB_antisymm : ∀ a b : List Char, lexLeB a b = true → lexLeB b a = true → a = b
  | [], [], _, _ => rfl
  | [], _ :: _, _, h2 => by simp [lexLeB] at h2
  | _ :: _, [], h1, _ => by simp [lexLeB] at h1
  | a :: as, b :: bs, h1, h2 => by
    rcases Nat.lt_trichotomy a.toNat b.toNat with h | h | h
    · simp [lexLeB, h, Nat.lt_asymm h] at h2
    · have hab : a = b := Char.eq_of_val_eq (UInt32.ext h)
      subst hab
      simp only [lexLeB, Nat.lt_irrefl, if_neg, if_false] at h1 h2
      rw [lexLeB_antisymm as bs h1 h2]
    · simp [lexLeB, h, Nat.lt_asymm h] at h1

instance : IsTotal String strLe :=
  ⟨fun a b => lexLeB_total a.toList b.toList⟩

instance : IsTrans String strLe :=
  ⟨fun _ _ _ h1 h2 => lexLeB_trans _ _ _ h1 h2⟩

instance : IsAntisymm String strLe :=
  ⟨fun a b h1 h2 => by
    have := lexLeB_antisymm a.toList b.toList h1 h2
    exact String.ext this⟩

/-- Sorting is permutation-invariant: the sorted form of a list depends
only on its multiset of elements. -/
theorem sortStr_eq_of_perm {l l' : List String} (h : l.Perm l') :
    sortStr l = sortStr l' :=
  List.eq_of_perm_of_sorted
    ((List.perm_insertionSort strLe l).trans (h.trans (List.perm_insertionSort strLe l').symm))
    (List.sorted_insertionSort strLe l) (List.sorted_insertionSort strLe l')

theorem count_filter_neg {l : List String} {p : String → Bool} {x : String}
    (h : p x = false) : (l.filter p).count x = 0 := by
  refine List.count_eq_zero.mpr fun hx => ?_
  rcases List.mem_filter.mp hx with ⟨-, hpx⟩
  rw [h] at hpx
  cases hpx

/-- C5: `diff_bulk_sub_phases` puts into the returned bulk subset exactly
the phases not containing the target element (all phases when the target
element is unset), the substitutional subset is exactly the complement,
and every input phase appears in exactly one of the two subsets
(counted with multiplicity). -/
theorem diff_bulk_sub_phases_partition (face_list : List String)
    (sub_el : Option String) (x : String) :
    (x ∈ (diff_bulk_sub_phases face_list sub_el).1 ↔
        x ∈ face_list ∧ subMatch sub_el x = false)
    ∧ (x ∈ subPhases face_list sub_el ↔
        x ∈ face_list ∧ subMatch sub_el x = true)
    ∧ (diff_bulk_sub_phases face_list sub_el).1.count x
        + (subPhases face_list sub_el).count x = face_list.count x
    ∧ (x ∈ (diff_bulk_sub_phases face_list none).1 ↔ x ∈ face_list) := by
  have hperm : (diff_bulk_sub_phases face_list sub_el).1.Perm
      (bulkPhases face_list sub_el) :=
    List.perm_insertionSort strLe _
  have hperm0 : (diff_bulk_sub_phases face_list none).1.Perm
      (bulkPhases face_list none) :=
    List.perm_insertionSort strLe _
  refine ⟨?_, ?_, ?_, ?_⟩
  · rw [hperm.mem_iff]
    unfold bulkPhases
    rw [List.mem_filter]
    simp
  · unfold subPhases
    rw [List.mem_filter]
  · rw [hperm.count_eq]
    unfold bulkPhases subPhases
    cases h : subMatch sub_el x
    · rw [List.count_filter (by simp [h]), count_filter_neg h]
      omega
    · rw [List.count_filter h, count_filter_neg (by simp [h])]
      omega
  · rw [hperm0.mem_iff]
    unfold bulkPhases
    rw [List.mem_filter]
    simp [subMatch]

/-- C6: `diff_bulk_sub_phases` is permutation-invariant — for any two
phase lists that are permutations of each other, the returned pair of
labels `(blknom, subnom)` is identical, because each subset is sorted
lexicographically before being dash-joined. -/
theorem diff_bulk_sub_phases_perm_invariant (l l' : List String)
    (sub_el : Option String) (h : l.Perm l') :
    (diff_bulk_sub_phases l sub_el).2 = (diff_bulk_sub_phases l' sub_el).2 := by
  unfold diff_bulk_sub_phases bulkPhases subPhases
  rw [sortStr_eq_of_perm (h.filter _), sortStr_eq_of_perm (h.filter _)]

/-- Witness for C6 at a concrete shuffled facet. -/
theorem diff_bulk_sub_phases_perm_invariant_witness :
    (diff_bulk_sub_phases ["GaAs", "As", "Mn3As2"] (some "Mn")).2 =
      (diff_bulk_sub_phases ["Mn3As2", "GaAs", "As"] (some "Mn")).2 :=
  diff_bulk_sub_phases_perm_invariant _ _ (some "Mn") (by decide)

/-! ## Data model for chemical-potential tables

`pd.get_all_chempots` (pymatgen, external) returns a dict mapping facet
label strings to dicts mapping element symbols to chemical potentials; it
is modelled as a `List (String × ChemPotVec)` supplied by an oracle.  In
the merged table `finchem_lims` the records additionally carry the
name-append diagnostic string; element keys and the literal key
name-append never collide, so the record is split into two fields.
pymatgen keys its chemical-potential dicts by Element objects while the
merge of lines 232-233 writes the plain symbol string; both are
identified with the symbol string here. -/

/-- A chemical-potential vector: element symbol to value. -/
abbrev ChemPotVec := List (String × ℚ)

/-- A record of the merged table `finchem_lims`: the chemical-potential
vector plus the optional name-append diagnostic. -/
structure FacetRec where
  mu : ChemPotVec
  nameAppend : Option String
deriving DecidableEq, Repr

/-- The merged table `finchem_lims`. -/
abbrev FacetTable := List (String × FacetRec)

/-- Canonicalisation applied to each bulk facet key
(`chemical_potentials.py` lines 202-206): split on `-`, partition with no
substitutional element, and take the returned `blknom`. -/
def canonKey (key : String) : String :=
  (diff_bulk_sub_phases (pySplitDash key) none).2.1

/-- Lines 201-206: rebuild the bulk-only table under canonical keys
(`finchem_lims[blknom] = chem_lims[key]`). -/
def canonize (chem_lims : List (String × ChemPotVec)) : FacetTable :=
  chem_lims.foldl (fun fin kv => upsert (canonKey kv.1) ⟨kv.2, none⟩ fin) []

/-- The name-append update of lines 234-237: set the diagnostic when
absent, otherwise concatenate with a dash. -/
def appendNom (subnom : String) : Option String → String
  | none => subnom
  | some s => s ++ "-" ++ subnom

/-- Lines 222-241, body of the per-facet loop for one substitutional
element `sub_el`: partition the facet `kv.1` of the augmented solve, and
if the bulk subset is one short of the number of bulk species, merge the
facet into `finchem_lims` under its bulk label — copying the whole
vector when the bulk label is absent, otherwise overwriting only the
chemical potential of `sub_el` — and update the name-append diagnostic;
otherwise skip the facet.  (Looking up the chemical potential of
`sub_el` in the augmented vector is `chem_lims[key][Element(sub_el)]` in
Python, which raises when absent; absence does not occur for tables
produced by the augmented solve, and is given a default here.) -/
def mergeFacet (bulk_species_count : ℕ) (sub_el : String)
    (kv : String × ChemPotVec) (fin : FacetTable) : FacetTable :=
  let parts := diff_bulk_sub_phases (pySplitDash kv.1) (some sub_el)
  if parts.1.length + 1 = bulk_species_count then
    let fin1 :=
      match alookup parts.2.1 fin with
      | none => upsert parts.2.1 ⟨kv.2, none⟩ fin
      | some r =>
          upsert parts.2.1
            { r with mu := upsert sub_el ((alookup sub_el kv.2).getD 0) r.mu } fin
    match alookup parts.2.1 fin1 with
    | none => fin1
    | some r =>
        upsert parts.2.1 { r with nameAppend := some (appendNom parts.2.2 r.nameAppend) } fin1
  else fin

/-- Lines 222-241: fold `mergeFacet` over every facet of the augmented
solve for one substitutional element. -/
def mergeSubEl (bulk_species_count : ℕ) (sub_el : String)
    (aug_chem_lims : List (String × ChemPotVec)) (fin : FacetTable) : FacetTable :=
  aug_chem_lims.foldl (fun fin kv => mergeFacet bulk_species_count sub_el kv fin) fin

/-- Lines 201-241: the full merged table — canonicalise the bulk-only
table, then for each substitutional element run the solver oracle on the
bulk entries plus that element's entries and merge the result. -/
def mergedTable {E : Type} (solveO : List E → List (String × ChemPotVec))
    (entry_list : List E) (bulk_species_count : ℕ)
    (subs_set : List (String × List E)) : FacetTable :=
  subs_set.foldl
    (fun fin se => mergeSubEl bulk_species_count se.1 (solveO (entry_list ++ se.2)) fin)
    (canonize (solveO entry_list))

/-- Lines 256-258: all substitutional entries, appended jointly for the
escalated full solve. -/
def allSubEntries {E : Type} (subs_set : List (String × List E)) : List E :=
  (subs_set.map (·.2)).flatten

/-- The value returned by the dilute branch: either the merged table, or
the raw output of the escalated joint solve. -/
inductive MergeOutcome where
  | merged (t : FacetTable)
  | escalated (t : List (String × ChemPotVec))
deriving DecidableEq, Repr

/-- Whether the overdetermination escalation was taken. -/
def MergeOutcome.isEscalated : MergeOutcome → Bool
  | merged _ => false
  | escalated _ => true

/-- The facet-label/vector pairs of either outcome, dropping the
name-append diagnostics. -/
def MergeOutcome.toPairs : MergeOutcome → List (String × ChemPotVec)
  | merged t => t.map (fun kv => (kv.1, kv.2.mu))
  | escalated t => t

/-- `MPChemPotAnalyzer.analyze_GGA_chempots`, dilute branch
(`chemical_potentials.py` lines 198-261, `full_sub_approach = False`):
build the merged table, then check it against the number of bulk species
(line 245); if the key counts differ, declare the chemical potentials
overdependent and redo one joint solve of the bulk entries plus all
substitutional entries, returning its output directly; otherwise return
the merged table.  The solver pipeline
PhaseDiagram + `get_chempots_from_pd` is the external collaborator
`solveO`. -/
def analyze_GGA_chempots_dilute {E : Type}
    (solveO : List E → List (String × ChemPotVec)) (entry_list : List E)
    (bulk_species_count : ℕ) (subs_set : List (String × List E)) : MergeOutcome :=
  let finchem_lims := mergedTable solveO entry_list bulk_species_count subs_set
  if (keysOf finchem_lims).length ≠ bulk_species_count then
    MergeOutcome.escalated (solveO (entry_list ++ allSubEntries subs_set))
  else
    MergeOutcome.merged finchem_lims

theorem alookup_upsert {α : Type} (k k' : String) (v : α) (t : List (String × α)) :
    alookup k (upsert k' v t) = if k' = k then some v else alookup k t := by
  induction t with
  | nil => by_cases h : k' = k <;> simp [upsert, alookup, h]
  | cons hd tl ih =>
    obtain ⟨k₀, v₀⟩ := hd
    by_cases h0 : k₀ = k'
    · subst h0
      by_cases hk : k₀ = k <;> simp [upsert, alookup, hk]
    · by_cases hk : k₀ = k
      · have hne : k' ≠ k := fun h => h0 (hk.trans h.symm)
        simp [upsert, alookup, h0, hk, hne, Ne.symm hne]
      · simp [upsert, alookup, h0, hk, ih]

theorem alookup_upsert_self {α : Type} (k : String) (v : α) (t : List (String × α)) :
    alookup k (upsert k v t) = some v := by
  rw [alookup_upsert, if_pos rfl]

theorem alookup_upsert_ne {α : Type} {k k' : String} (v : α) (t : List (String × α))
    (h : k' ≠ k) : alookup k (upsert k' v t) = alookup k t := by
  rw [alookup_upsert, if_neg h]

theorem upsert_of_alookup_none {α : Type} (k : String) (v : α) (t : List (String × α))
    (h : alookup k t = none) : upsert k v t = t ++ [(k, v)] := by
  induction t with
  | nil => rfl
  | cons hd tl ih =>
    obtain ⟨k₀, v₀⟩ := hd
    by_cases h0 : k₀ = k
    · simp [alookup, h0] at h
    · simp only [alookup, h0, if_false, if_neg] at h
      simp [upsert, h0, ih h]

theorem alookup_append {α : Type} (k : String) (t1 t2 : List (String × α)) :
    alookup k (t1 ++ t2) =
      match alookup k t1 with
      | some v => some v
      | none => alookup k t2 := by
  induction t1 with
  | nil => simp [alookup]
  | cons hd tl ih =>
    obtain ⟨k₀, v₀⟩ := hd
    by_cases h0 : k₀ = k <;> simp [alookup, h0, ih]

/-- The name-append update always changes the diagnostic (the appended
string is strictly longer). -/
theorem appendNom_ne (subnom : String) (o : Option String) :
    some (appendNom subnom o) ≠ o := by
  cases o with
  | none => simp
  | some s =>
    simp only [appendNom, ne_eq, Option.some.injEq]
    intro h
    have hlen := congrArg String.length h
    rw [String.length_append, String.length_append] at hlen
    have : ("-" : String).length = 1 := rfl
    omega

theorem mergeFacet_reject {bulk_species_count : ℕ} {sub_el : String}
    {kv : String × ChemPotVec} {fin : FacetTable}
    (h : ¬ (diff_bulk_sub_phases (pySplitDash kv.1) (some sub_el)).1.length + 1
        = bulk_species_count) :
    mergeFacet bulk_species_count sub_el kv fin = fin := by
  unfold mergeFacet
  simp only [h, if_false]

theorem mergeFacet_accept_none {bulk_species_count : ℕ} {sub_el : String}
    {kv : String × ChemPotVec} {fin : FacetTable}
    (hc : (diff_bulk_sub_phases (pySplitDash kv.1) (some sub_el)).1.length + 1
        = bulk_species_count)
    (halk : alookup (diff_bulk_sub_phases (pySplitDash kv.1) (some sub_el)).2.1 fin = none) :
    mergeFacet bulk_species_count sub_el kv fin =
      upsert (diff_bulk_sub_phases (pySplitDash kv.1) (some sub_el)).2.1
        ⟨kv.2, some (appendNom (diff_bulk_sub_phases (pySplitDash kv.1) (some sub_el)).2.2 none)⟩
        (upsert (diff_bulk_sub_phases (pySplitDash kv.1) (some sub_el)).2.1
          ⟨kv.2, none⟩ fin) := by
  unfold mergeFacet
  simp only [hc, if_pos, halk, alookup_upsert_self]

theorem mergeFacet_accept_some {bulk_species_count : ℕ} {sub_el : String}
    {kv : String × ChemPotVec} {fin : FacetTable} {r : FacetRec}
    (hc : (diff_bulk_sub_phases (pySplitDash kv.1) (some sub_el)).1.length + 1
        = bulk_species_count)
    (halk : alookup (diff_bulk_sub_phases (pySplitDash kv.1) (some sub_el)).2.1 fin = some r) :
    mergeFacet bulk_species_count sub_el kv fin =
      upsert (diff_bulk_sub_phases (pySplitDash kv.1) (some sub_el)).2.1
        ⟨upsert sub_el ((alookup sub_el kv.2).getD 0) r.mu,
          some (appendNom (diff_bulk_sub_phases (pySplitDash kv.1) (some sub_el)).2.2
            r.nameAppend)⟩
        (upsert (diff_bulk_sub_phases (pySplitDash kv.1) (some sub_el)).2.1
          ⟨upsert sub_el ((alookup sub_el kv.2).getD 0) r.mu, r.nameAppend⟩ fin) := by
  unfold mergeFacet
  simp only [hc, if_pos, halk, alookup_upsert_self]

/-- C3: a facet of the augmented solve is accepted into the merged table
(its record under the facet's bulk label changes) exactly when the size
of its bulk subset plus one equals the number of bulk species; a facet
failing the test is silently discarded and contributes nothing, and in
either case no key other than the facet's bulk label is touched. -/
theorem mergeFacet_acceptance (bulk_species_count : ℕ) (sub_el : String)
    (kv : String × ChemPotVec) (fin : FacetTable) (k : String)
    (hk : k ≠ (diff_bulk_sub_phases (pySplitDash kv.1) (some sub_el)).2.1) :
    (if (diff_bulk_sub_phases (pySplitDash kv.1) (some sub_el)).1.length + 1
          = bulk_species_count
      then alookup (diff_bulk_sub_phases (pySplitDash kv.1) (some sub_el)).2.1
            (mergeFacet bulk_species_count sub_el kv fin)
          ≠ alookup (diff_bulk_sub_phases (pySplitDash kv.1) (some sub_el)).2.1 fin
      else mergeFacet bulk_species_count sub_el kv fin = fin)
    ∧ alookup k (mergeFacet bulk_species_count sub_el kv fin) = alookup k fin := by
  by_cases hcond :
      (diff_bulk_sub_phases (pySplitDash kv.1) (some sub_el)).1.length + 1
        = bulk_species_count
  · rw [if_pos hcond]
    have hkne : (diff_bulk_sub_phases (pySplitDash kv.1) (some sub_el)).2.1 ≠ k :=
      fun h => hk h.symm
    cases halk : alookup (diff_bulk_sub_phases (pySplitDash kv.1) (some sub_el)).2.1 fin with
    | none =>
      rw [mergeFacet_accept_none hcond halk]
      constructor
      · rw [alookup_upsert_self]
        simp
      · rw [alookup_upsert_ne _ _ hkne, alookup_upsert_ne _ _ hkne]
    | some r =>
      rw [mergeFacet_accept_some hcond halk]
      constructor
      · rw [alookup_upsert_self]
        intro hcontr
        have hrec := Option.some.inj hcontr
        have hna := congrArg FacetRec.nameAppend hrec
        exact appendNom_ne _ r.nameAppend hna
      · rw [alookup_upsert_ne _ _ hkne, alookup_upsert_ne _ _ hkne]
  · rw [if_neg hcond, mergeFacet_reject hcond]
    exact ⟨rfl, rfl⟩

/-- Witness for C3: a facet needing two substitutional phases in a
three-element bulk system is rejected, leaving the table untouched, and
keys other than the bulk label are never touched. -/
theorem mergeFacet_acceptance_witness :
    (if (diff_bulk_sub_phases (pySplitDash "A-Q1-Q2") (some "Q")).1.length + 1 = 3
      then alookup (diff_bulk_sub_phases (pySplitDash "A-Q1-Q2") (some "Q")).2.1
            (mergeFacet 3 "Q" ("A-Q1-Q2", [("A", (0 : ℚ))]) [])
          ≠ alookup (diff_bulk_sub_phases (pySplitDash "A-Q1-Q2") (some "Q")).2.1 []
      else mergeFacet 3 "Q" ("A-Q1-Q2", [("A", (0 : ℚ))]) [] = [])
    ∧ alookup "Z" (mergeFacet 3 "Q" ("A-Q1-Q2", [("A", (0 : ℚ))]) [])
        = alookup "Z" ([] : FacetTable) :=
  mergeFacet_acceptance 3 "Q" ("A-Q1-Q2", [("A", (0 : ℚ))]) [] "Z" (by decide)

/-- The chemical potential of element `e` recorded under facet key `k` of
a merged table. -/
def muTableAt (e k : String) (t : FacetTable) : Option ℚ :=
  (alookup k t).bind (fun r => alookup e r.mu)

/-- The name-append diagnostic recorded under facet key `k`. -/
def napAt (k : String) (t : FacetTable) : Option String :=
  (alookup k t).bind (·.nameAppend)

theorem mergeFacet_preserves (bulk_species_count : ℕ) (sub_el : String)
    (kv : String × ChemPotVec) (fin : FacetTable) (k' e' : String)
    (hk' : (alookup k' fin).isSome = true) (he' : e' ≠ sub_el) :
    (alookup k' (mergeFacet bulk_species_count sub_el kv fin)).isSome = true
    ∧ muTableAt e' k' (mergeFacet bulk_species_count sub_el kv fin)
        = muTableAt e' k' fin := by
  by_cases hcond :
      (diff_bulk_sub_phases (pySplitDash kv.1) (some sub_el)).1.length + 1
        = bulk_species_count
  · by_cases hbk : (diff_bulk_sub_phases (pySplitDash kv.1) (some sub_el)).2.1 = k'
    · subst hbk
      cases halk : alookup (diff_bulk_sub_phases (pySplitDash kv.1) (some sub_el)).2.1 fin with
      | none => rw [halk] at hk'; cases hk'
      | some r =>
        rw [mergeFacet_accept_some hcond halk]
        unfold muTableAt
        rw [alookup_upsert_self, halk]
        refine ⟨rfl, ?_⟩
        simp only [Option.some_bind]
        exact alookup_upsert_ne _ _ (fun h => he' h.symm)
    · cases halk : alookup (diff_bulk_sub_phases (pySplitDash kv.1) (some sub_el)).2.1 fin with
      | none =>
        rw [mergeFacet_accept_none hcond halk]
        unfold muTableAt
        rw [alookup_upsert_ne _ _ hbk, alookup_upsert_ne _ _ hbk]
        exact ⟨hk', rfl⟩
      | some r =>
        rw [mergeFacet_accept_some hcond halk]
        unfold muTableAt
        rw [alookup_upsert_ne _ _ hbk, alookup_upsert_ne _ _ hbk]
        exact ⟨hk', rfl⟩
  · rw [mergeFacet_reject hcond]
    exact ⟨hk', rfl⟩

/-- C4: when an accepted facet's bulk label is already present in the
merged table, the merge overwrites only the chemical potential of the
substitutional element in the existing record and appends the
substitutional label to its name-append diagnostic, leaving every other
element's chemical potential in that record unchanged; when the bulk
label is absent the full augmented vector is copied in.  Moreover,
merging one substitutional element never alters the chemical potential
of any element other than that substitutional element on any facet
already in the table. -/
theorem mergeFacet_merge_semantics (bulk_species_count : ℕ) (sub_el : String)
    (kv : String × ChemPotVec) (fin : FacetTable) (e : String)
    (aug : List (String × ChemPotVec)) (k' e' : String)
    (hcond : (diff_bulk_sub_phases (pySplitDash kv.1) (some sub_el)).1.length + 1
        = bulk_species_count)
    (he : e ≠ sub_el)
    (hk' : (alookup k' fin).isSome = true) (he' : e' ≠ sub_el) :
    muTableAt e (diff_bulk_sub_phases (pySplitDash kv.1) (some sub_el)).2.1
        (mergeFacet bulk_species_count sub_el kv fin)
      = (alookup (diff_bulk_sub_phases (pySplitDash kv.1) (some sub_el)).2.1 fin).elim
          (alookup e kv.2) (fun r => alookup e r.mu)
    ∧ muTableAt sub_el (diff_bulk_sub_phases (pySplitDash kv.1) (some sub_el)).2.1
        (mergeFacet bulk_species_count sub_el kv fin)
      = (alookup (diff_bulk_sub_phases (pySplitDash kv.1) (some sub_el)).2.1 fin).elim
          (alookup sub_el kv.2) (fun _ => some ((alookup sub_el kv.2).getD 0))
    ∧ napAt (diff_bulk_sub_phases (pySplitDash kv.1) (some sub_el)).2.1
        (mergeFacet bulk_species_count sub_el kv fin)
      = some ((alookup (diff_bulk_sub_phases (pySplitDash kv.1) (some sub_el)).2.1 fin).elim
          (diff_bulk_sub_phases (pySplitDash kv.1) (some sub_el)).2.2
          (fun r => appendNom (diff_bulk_sub_phases (pySplitDash kv.1) (some sub_el)).2.2
            r.nameAppend))
    ∧ muTableAt e' k' (mergeSubEl bulk_species_count sub_el aug fin)
        = muTableAt e' k' fin := by
  refine ⟨?_, ?_, ?_, ?_⟩
  · cases halk : alookup (diff_bulk_sub_phases (pySplitDash kv.1) (some sub_el)).2.1 fin with
    | none =>
      rw [mergeFacet_accept_none hcond halk]
      unfold muTableAt
      rw [alookup_upsert_self]
      rfl
    | some r =>
      rw [mergeFacet_accept_some hcond halk]
      unfold muTableAt
      rw [alookup_upsert_self]
      simp only [Option.some_bind, Option.elim]
      exact alookup_upsert_ne _ _ (fun h => he h.symm)
  · cases halk : alookup (diff_bulk_sub_phases (pySplitDash kv.1) (some sub_el)).2.1 fin with
    | none =>
      rw [mergeFacet_accept_none hcond halk]
      unfold muTableAt
      rw [alookup_upsert_self]
      rfl
    | some r =>
      rw [mergeFacet_accept_some hcond halk]
      unfold muTableAt
      rw [alookup_upsert_self]
      simp only [Option.some_bind, Option.elim]
      exact alookup_upsert_self _ _ _
  · cases halk : alookup (diff_bulk_sub_phases (pySplitDash kv.1) (some sub_el)).2.1 fin with
    | none =>
      rw [mergeFacet_accept_none hcond halk]
      unfold napAt
      rw [alookup_upsert_self]
      rfl
    | some r =>
      rw [mergeFacet_accept_some hcond halk]
      unfold napAt
      rw [alookup_upsert_self]
      rfl
  · clear hcond he
    induction aug generalizing fin with
    | nil => rfl
    | cons hd tl ih =>
      unfold mergeSubEl at ih ⊢
      simp only [List.foldl_cons]
      have hstep := mergeFacet_preserves bulk_species_count sub_el hd fin k' e' hk' he'
      rw [ih _ hstep.1, hstep.2]

/-- Concrete merged table for the C4 witness. -/
def c4Fin : FacetTable :=
  [("A", { mu := [("A", (-7 : ℚ)), ("B", 3)], nameAppend := none })]

/-- Concrete augmented facet for the C4 witness. -/
def c4Kv : String × ChemPotVec :=
  ("A-QO2", [("A", (-1 : ℚ)), ("Q", 5)])

/-- Witness for C4 at a concrete accepted facet whose bulk label is
already present. -/
theorem mergeFacet_merge_semantics_witness :
    muTableAt "A" (diff_bulk_sub_phases (pySplitDash c4Kv.1) (some "Q")).2.1
        (mergeFacet 2 "Q" c4Kv c4Fin)
      = (alookup (diff_bulk_sub_phases (pySplitDash c4Kv.1) (some "Q")).2.1 c4Fin).elim
          (alookup "A" c4Kv.2) (fun r => alookup "A" r.mu)
    ∧ muTableAt "Q" (diff_bulk_sub_phases (pySplitDash c4Kv.1) (some "Q")).2.1
        (mergeFacet 2 "Q" c4Kv c4Fin)
      = (alookup (diff_bulk_sub_phases (pySplitDash c4Kv.1) (some "Q")).2.1 c4Fin).elim
          (alookup "Q" c4Kv.2) (fun _ => some ((alookup "Q" c4Kv.2).getD 0))
    ∧ napAt (diff_bulk_sub_phases (pySplitDash c4Kv.1) (some "Q")).2.1
        (mergeFacet 2 "Q" c4Kv c4Fin)
      = some ((alookup (diff_bulk_sub_phases (pySplitDash c4Kv.1) (some "Q")).2.1 c4Fin).elim
          (diff_bulk_sub_phases (pySplitDash c4Kv.1) (some "Q")).2.2
          (fun r => appendNom (diff_bulk_sub_phases (pySplitDash c4Kv.1) (some "Q")).2.2
            r.nameAppend))
    ∧ muTableAt "B" "A" (mergeSubEl 2 "Q" [c4Kv] c4Fin) = muTableAt "B" "A" c4Fin :=
  mergeFacet_merge_semantics 2 "Q" c4Kv c4Fin "A" [c4Kv] "A" "B"
    (by decide) (by decide) (by decide) (by decide)

/-- C1 (amended): in the dilute merge path, after all substitutional
elements are processed, the overdetermination escalation is taken exactly
when the number of keys of the merged table differs from the number of
bulk species symbols; in that case the merged table is discarded, the
bulk-derived entries and all substitutional entries are solved jointly
once, and that output is returned directly; otherwise the merged table is
returned. -/
theorem analyze_dilute_escalation (E : Type)
    (solveO : List E → List (String × ChemPotVec)) (entry_list : List E)
    (bulk_species_count : ℕ) (subs_set : List (String × List E)) :
    ((analyze_GGA_chempots_dilute solveO entry_list bulk_species_count subs_set).isEscalated
        = true
      ↔ (keysOf (mergedTable solveO entry_list bulk_species_count subs_set)).length
          ≠ bulk_species_count)
    ∧ (if (keysOf (mergedTable solveO entry_list bulk_species_count subs_set)).length
          ≠ bulk_species_count
       then analyze_GGA_chempots_dilute solveO entry_list bulk_species_count subs_set
          = MergeOutcome.escalated (solveO (entry_list ++ allSubEntries subs_set))
       else analyze_GGA_chempots_dilute solveO entry_list bulk_species_count subs_set
          = MergeOutcome.merged (mergedTable solveO entry_list bulk_species_count subs_set)) := by
  unfold analyze_GGA_chempots_dilute
  by_cases h : (keysOf (mergedTable solveO entry_list bulk_species_count subs_set)).length
      = bulk_species_count
  · simp [h, MergeOutcome.isEscalated]
  · simp [h, MergeOutcome.isEscalated]

/-- The bulk-only table of the C1 counterexample: a ternary bulk system
whose composition is adjacent to four facets (a vertex shared by four
coexistence triangles), as the hull collaborator may legitimately
produce. -/
def c1Bulk : List (String × ChemPotVec) :=
  [("A-B-X", [("A", (0 : ℚ)), ("B", 0), ("C", 0)]),
   ("A-C-X", [("A", (0 : ℚ)), ("B", 0), ("C", 0)]),
   ("B-C-X", [("A", (0 : ℚ)), ("B", 0), ("C", 0)]),
   ("A-B-C", [("A", (0 : ℚ)), ("B", 0), ("C", 0)])]

/-- Solver oracle of the C1 counterexample; the augmented solve happens
to yield the same facets, none containing the substitutional element, so
every augmented facet is rejected by the acceptance rule. -/
def c1Solve : List ℕ → List (String × ChemPotVec) :=
  fun _ => c1Bulk

/-- Counterexample to C1 as stated: with three bulk species and a
bulk-only table of four facets, the merged table has exactly as many keys
as the original bulk-only table, yet the escalation is still taken — the
code (line 245) compares the merged key count with the number of bulk
species symbols, not with the facet-key count of the bulk-only table. -/
theorem analyze_dilute_escalation_cex :
    ¬ (((analyze_GGA_chempots_dilute c1Solve [0, 1, 2] 3 [("Q", [7])]).isEscalated = true)
        ↔ (keysOf (mergedTable c1Solve [0, 1, 2] 3 [("Q", [7])])).length
            ≠ (keysOf (c1Solve [0, 1, 2])).length) := by
  decide

theorem canonize_eq_map (chem_lims : List (String × ChemPotVec))
    (hcanon : ∀ k ∈ keysOf chem_lims, canonKey k = k)
    (hnodup : (keysOf chem_lims).Nodup) :
    canonize chem_lims = chem_lims.map (fun kv => (kv.1, ⟨kv.2, none⟩)) := by
  have aux : ∀ (l : List (String × ChemPotVec)) (acc : FacetTable),
      (∀ k ∈ keysOf l, canonKey k = k) →
      (keysOf l).Nodup →
      (∀ k ∈ keysOf l, alookup k acc = none) →
      l.foldl (fun fin kv => upsert (canonKey kv.1) ⟨kv.2, none⟩ fin) acc
        = acc ++ l.map (fun kv => (kv.1, ⟨kv.2, none⟩)) := by
    intro l
    induction l with
    | nil =>
      intro acc _ _ _
      simp
    | cons hd tl ih =>
      intro acc hc hn hf
      obtain ⟨k, v⟩ := hd
      have hkmem : k ∈ keysOf ((k, v) :: tl) := by simp [keysOf]
      have hcons : k ∉ keysOf tl ∧ (keysOf tl).Nodup := by
        rw [show keysOf ((k, v) :: tl) = k :: keysOf tl from rfl] at hn
        exact List.nodup_cons.mp hn
      have htl : ∀ k' ∈ keysOf tl, k' ∈ keysOf ((k, v) :: tl) := by
        intro k' hk'
        rw [show keysOf ((k, v) :: tl) = k :: keysOf tl from rfl]
        exact List.mem_cons_of_mem _ hk'
      simp only [List.foldl_cons]
      rw [hc _ hkmem, upsert_of_alookup_none _ _ _ (hf _ hkmem)]
      have hrec := ih (acc ++ [(k, ({ mu := v, nameAppend := none } : FacetRec))])
        (fun k' hk' => hc k' (htl k' hk'))
        hcons.2
        (fun k' hk' => by
          rw [alookup_append, hf k' (htl k' hk')]
          have hne : k ≠ k' := fun h => hcons.1 (h ▸ hk')
          simp [alookup, hne])
      rw [hrec]
      simp
  exact aux chem_lims [] hcanon hnodup (fun k _ => rfl)

/-- C7: with an empty set of substitutional species, the dilute branch
returns exactly the bulk-only table — same keys and same vectors —
whether or not the escalation fires (the escalated solve then re-solves
the bulk entries alone); facet labels from the hull collaborator are
canonical and distinct per the data-model invariant. -/
theorem analyze_dilute_no_subs (E : Type)
    (solveO : List E → List (String × ChemPotVec)) (entry_list : List E)
    (bulk_species_count : ℕ)
    (hcanon : ∀ k ∈ keysOf (solveO entry_list), canonKey k = k)
    (hnodup : (keysOf (solveO entry_list)).Nodup) :
    (analyze_GGA_chempots_dilute solveO entry_list bulk_species_count []).toPairs
      = solveO entry_list := by
  unfold analyze_GGA_chempots_dilute mergedTable
  simp only [List.foldl_nil]
  rw [canonize_eq_map _ hcanon hnodup]
  split
  · show MergeOutcome.toPairs
        (MergeOutcome.escalated (solveO (entry_list ++ allSubEntries []))) = _
    unfold allSubEntries
    simp [MergeOutcome.toPairs]
  · simp only [MergeOutcome.toPairs, List.map_map]
    have hid : ((fun kv : String × FacetRec => (kv.1, kv.2.mu)) ∘
        fun kv : String × ChemPotVec =>
          (kv.1, ({ mu := kv.2, nameAppend := none } : FacetRec))) = id :=
      funext fun kv => rfl
    rw [hid, List.map_id]

/-- Witness for C7 with a concrete binary bulk system. -/
theorem analyze_dilute_no_subs_witness :
    (analyze_GGA_chempots_dilute
        (fun _ : List ℕ => [("A-AB2", [("A", (0 : ℚ)), ("B", -2)]),
          ("AB2-B", [("A", (-3 : ℚ)), ("B", 0)])]) [] 2 []).toPairs
      = [("A-AB2", [("A", (0 : ℚ)), ("B", -2)]),
          ("AB2-B", [("A", (-3 : ℚ)), ("B", 0)])] :=
  analyze_dilute_no_subs ℕ _ [] 2 (by decide) (by decide)

/-! ## Stability classification (`chemical_potentials.py` lines 156-193)

The decomposition energy above the hull and the stable-entry list come
from the external hull collaborator and are inputs here; `redcomp` is the
bulk entry's reduced composition.  The four logging branches of the
source are named by the statuses the spec gives them; only the second
branch touches `entry_list`. -/

/-- Round half to even to the nearest integer: the behaviour of Python's
builtin `round` on exact values. -/
def roundHalfEven (x : ℚ) : ℤ :=
  if x - Int.floor x < 1 / 2 then Int.floor x
  else if x - Int.floor x > 1 / 2 then Int.floor x + 1
  else if Int.floor x % 2 = 0 then Int.floor x else Int.floor x + 1

/-- Python `round(x, 4)` on exact values. -/
def pyRound4 (q : ℚ) : ℚ :=
  (roundHalfEven (q * 10000) : ℚ) / 10000

/-- The four branches of the classification. -/
inductive StabStatus where
  | stableKnown
  | stableNew
  | unstableKnown
  | unstableNew
deriving DecidableEq, Repr

/-- Lines 159-162: the flag `stable_composition_exists`, a fold over the
stable entries comparing reduced compositions. -/
def stableCompositionExists {C : Type} [DecidableEq C]
    (stable_entries : List C) (redcomp : C) : Bool :=
  stable_entries.foldl (fun acc c => if c = redcomp then true else acc) false

/-- Lines 156-193: round the decomposition energy to four decimal
places, pick the branch, and append `bulk_ce` to `entry_list` exactly in
the stable-but-no-matching-composition branch.  Returns
`(decomp_en, status, entry_list)`. -/
def classifyStability {E C : Type} [DecidableEq C] (e_above_hull : ℚ)
    (stable_entries : List C) (redcomp : C) (entry_list : List E) (bulk_ce : E) :
    ℚ × StabStatus × List E :=
  let decomp_en := pyRound4 e_above_hull
  let ex := stableCompositionExists stable_entries redcomp
  if decomp_en ≤ 0 ∧ ex = true then
    (decomp_en, StabStatus.stableKnown, entry_list)
  else if decomp_en ≤ 0 ∧ ¬ ex = true then
    (decomp_en, StabStatus.stableNew, entry_list ++ [bulk_ce])
  else if ex = true then
    (decomp_en, StabStatus.unstableKnown, entry_list)
  else
    (decomp_en, StabStatus.unstableNew, entry_list)

/-- C2: the classification reports the hull energy rounded to 4 decimal
places; its status is `stableNew` exactly when the rounded energy is
nonpositive and no stable vertex shares the reduced composition; and only
that branch mutates the working entry set, appending the target exactly
once (length grows by exactly 1), all other branches returning the set
unchanged. -/
theorem classifyStability_cases {E C : Type} [DecidableEq C] (e_above_hull : ℚ)
    (stable_entries : List C) (redcomp : C) (entry_list : List E) (bulk_ce : E) :
    (classifyStability e_above_hull stable_entries redcomp entry_list bulk_ce).1
        = pyRound4 e_above_hull
    ∧ ((classifyStability e_above_hull stable_entries redcomp entry_list bulk_ce).2.1
          = StabStatus.stableNew
        ↔ pyRound4 e_above_hull ≤ 0
          ∧ stableCompositionExists stable_entries redcomp = false)
    ∧ (if (classifyStability e_above_hull stable_entries redcomp entry_list bulk_ce).2.1
          = StabStatus.stableNew
       then (classifyStability e_above_hull stable_entries redcomp entry_list bulk_ce).2.2
            = entry_list ++ [bulk_ce]
          ∧ (classifyStability e_above_hull stable_entries redcomp entry_list
              bulk_ce).2.2.length = entry_list.length + 1
       else (classifyStability e_above_hull stable_entries redcomp entry_list bulk_ce).2.2
            = entry_list) := by
  unfold classifyStability
  by_cases hle : pyRound4 e_above_hull ≤ 0 <;>
    cases hex : stableCompositionExists stable_entries redcomp <;>
      simp [hle, hex]

/-! ## Locally-sourced pipeline (`UserChemPotAnalyzer.read_phase_diagram_and_chempots`)

Entries loaded from vasprun files are modelled by their composition
(list of element symbols) and total energy. -/

/-- A loaded computed entry: its composition's distinct element symbols
and its total energy. -/
structure PEntry where
  elems : List String
  energy : ℚ
deriving DecidableEq, Repr

/-- Lines 506-509: the flag `bulk_associated`, a fold over the entry's
elements that is cleared whenever an element lies outside the bulk
composition. -/
def bulkAssociated (bulkElems : List String) (e : PEntry) : Bool :=
  e.elems.foldl (fun acc elt => if elt ∈ bulkElems then acc else false) true

/-- Lines 502-514: separate the loaded entries into bulk-associated ones
(collected into `entry_list`) and substitution-associated ones.  In the
substitution branch the source invokes the list
`sub_associated_entry_list` as a callable
(`sub_associated_entry_list(localentry)`), so Python raises a TypeError
there; the embedding returns the raised message.  On success it returns
`(entry_list, sub_associated_entry_list)`. -/
def separateBulkSub (bulkElems : List String) :
    List PEntry → List PEntry → List PEntry → Except String (List PEntry × List PEntry)
  | entry_list, sub_list, [] => Except.ok (entry_list, sub_list)
  | entry_list, sub_list, localentry :: rest =>
    if bulkAssociated bulkElems localentry then
      separateBulkSub bulkElems (entry_list ++ [localentry]) sub_list rest
    else
      Except.error "TypeError: list object is not callable"

/-- C8: whenever at least one loaded entry's composition contains an
element outside the bulk composition, the separation step of the
locally-sourced pipeline raises a TypeError instead of collecting the
entry, because the collection value is invoked as a callable where an
append was intended; substitution-associated entries are never
collected. -/
theorem separateBulkSub_raises (bulkElems : List String)
    (personal_entry_list : List PEntry)
    (h : personal_entry_list.any (fun e => !(bulkAssociated bulkElems e)) = true) :
    separateBulkSub bulkElems [] [] personal_entry_list
      = Except.error "TypeError: list object is not callable" := by
  have aux : ∀ (l acc : List PEntry),
      l.any (fun e => !(bulkAssociated bulkElems e)) = true →
      separateBulkSub bulkElems acc [] l
        = Except.error "TypeError: list object is not callable" := by
    intro l
    induction l with
    | nil => intro acc hl; cases hl
    | cons hd tl ih =>
      intro acc hl
      unfold separateBulkSub
      cases hb : bulkAssociated bulkElems hd with
      | false => simp [hb]
      | true =>
        simp only [hb, if_true, if_pos]
        apply ih
        simp only [List.any_cons, hb, Bool.not_true, Bool.false_or] at hl
        exact hl
  exact aux personal_entry_list [] h

/-- Witness for C8: one loaded entry containing an element `Q` outside
the bulk composition `A-B` makes the separation raise. -/
theorem separateBulkSub_raises_witness :
    separateBulkSub ["A", "B"] [] [] [⟨["A", "B"], -2⟩, ⟨["A", "Q"], 1⟩]
      = Except.error "TypeError: list object is not callable" :=
  separateBulkSub_raises ["A", "B"] [⟨["A", "B"], -2⟩, ⟨["A", "Q"], 1⟩] (by decide)

/-! ## Fake elemental references
(`read_phase_diagram_and_chempots`, `include_mp_entries = False` branch,
lines 477-492) -/

/-- Python `pentry.is_element`: the composition has a single element. -/
def isElement (e : PEntry) : Bool :=
  e.elems.length = 1

/-- `pentry.composition.elements[0]`. -/
def firstElem (e : PEntry) : String :=
  e.elems.headD ""

/-- Lines 482-484: count the elemental entries per bulk element;
`eltcount[...] += 1` raises a KeyError when an elemental entry's element
is not a key (not a bulk element). -/
def countElemental (eltcount : List (String × ℕ)) :
    List PEntry → Except String (List (String × ℕ))
  | [] => Except.ok eltcount
  | pentry :: rest =>
    if isElement pentry then
      match alookup (firstElem pentry) eltcount with
      | none => Except.error "KeyError"
      | some n => countElemental (upsert (firstElem pentry) (n + 1) eltcount) rest
    else countElemental eltcount rest

/-- The synthetic entry of lines 487-488: a single-atom structure of the
element with total energy 0. -/
def mkFake (elt : String) : PEntry :=
  { elems := [elt], energy := 0 }

/-- Lines 478-492 (the `include_mp_entries = False` branch): append the
bulk entry, zero-initialise `eltcount` over the set of bulk elements,
count elemental entries, and append a fake zero-energy entry for every
bulk element with count zero. -/
def addFakeElementals (bulk_ce : PEntry) (personal_entry_list : List PEntry) :
    Except String (List PEntry) :=
  let p1 := personal_entry_list ++ [bulk_ce]
  let eltcount0 := bulk_ce.elems.dedup.map (fun elt => (elt, 0))
  match countElemental eltcount0 p1 with
  | Except.error s => Except.error s
  | Except.ok eltcount =>
      Except.ok (eltcount.foldl
        (fun acc kv => if kv.2 = 0 then acc ++ [mkFake kv.1] else acc) p1)

/-- Whether some loaded entry is a pure-element entry for `elt`. -/
def hasElemEntry (elt : String) (l : List PEntry) : Bool :=
  l.any (fun p => isElement p && firstElem p == elt)

/-- The number of pure-element entries for `elt` in `l`. -/
def elemCntIn (elt : String) (l : List PEntry) : ℕ :=
  (l.filter (fun p => isElement p && firstElem p == elt)).length

theorem keysOf_upsert_of_isSome {α : Type} (k : String) (v : α)
    (t : List (String × α)) (h : (alookup k t).isSome = true) :
    keysOf (upsert k v t) = keysOf t := by
  induction t with
  | nil => simp [alookup] at h
  | cons hd tl ih =>
    obtain ⟨k₀, v₀⟩ := hd
    by_cases h0 : k₀ = k
    · subst h0
      simp [upsert, keysOf]
    · simp only [alookup, h0, if_neg, if_false] at h
      simp only [upsert, h0, if_neg, if_false, keysOf, List.map_cons]
      exact congrArg (List.cons k₀) (ih h)

theorem upsert_succ_map (c : String → ℕ) :
    ∀ (ec : List (String × ℕ)) (f : String) (n : ℕ),
    (keysOf ec).Nodup → alookup f ec = some n →
    (upsert f (n + 1) ec).map (fun kv => (kv.1, kv.2 + c kv.1))
      = ec.map (fun kv => (kv.1, kv.2 + if kv.1 = f then c kv.1 + 1 else c kv.1)) := by
  intro ec
  induction ec with
  | nil => intro f n _ h; cases h
  | cons hd tl ih =>
    intro f n hnodup halk
    obtain ⟨k₀, v₀⟩ := hd
    have hcons : k₀ ∉ keysOf tl ∧ (keysOf tl).Nodup := by
      rw [show keysOf ((k₀, v₀) :: tl) = k₀ :: keysOf tl from rfl] at hnodup
      exact List.nodup_cons.mp hnodup
    by_cases h0 : k₀ = f
    · subst h0
      have hv : v₀ = n := by simpa [alookup] using halk
      rw [hv]
      have htl : ∀ kv ∈ tl, kv.1 ≠ k₀ := by
        intro kv hkv hq
        exact hcons.1 (hq ▸ List.mem_map_of_mem (·.1) hkv)
      rw [show upsert k₀ (n + 1) ((k₀, n) :: tl) = (k₀, n + 1) :: tl by simp [upsert]]
      simp only [List.map_cons]
      refine congrArg₂ List.cons ?_ ?_
      · simp only [eq_self_iff_true, if_true, Prod.mk.injEq, true_and]
        omega
      · exact List.map_congr_left fun kv hkv => by rw [if_neg (htl kv hkv)]
    · simp only [alookup, h0, if_neg, if_false] at halk
      simp only [upsert, h0, if_neg, if_false, List.map_cons]
      rw [ih f n hcons.2 halk]

theorem countElemental_spec : ∀ (l : List PEntry) (ec : List (String × ℕ)),
    (keysOf ec).Nodup →
    (∀ p ∈ l, isElement p = true → (alookup (firstElem p) ec).isSome = true) →
    countElemental ec l
      = Except.ok (ec.map (fun kv => (kv.1, kv.2 + elemCntIn kv.1 l)))
  | [], ec, _, _ => by
    simp [countElemental, elemCntIn]
  | pentry :: rest, ec, hnodup, hsome => by
    unfold countElemental
    cases hel : isElement pentry with
    | false =>
      simp only [hel, Bool.false_eq_true, if_false]
      rw [countElemental_spec rest ec hnodup
        (fun p hp h => hsome p (List.mem_cons_of_mem _ hp) h)]
      congr 1
      refine List.map_congr_left fun kv _ => ?_
      simp [elemCntIn, List.filter_cons, hel]
    | true =>
      have hs := hsome pentry (List.mem_cons_self _ _) hel
      cases halk : alookup (firstElem pentry) ec with
      | none => rw [halk] at hs; cases hs
      | some n =>
        simp only [hel, if_true, halk]
        have hnodup2 : (keysOf (upsert (firstElem pentry) (n + 1) ec)).Nodup := by
          rw [keysOf_upsert_of_isSome _ _ _ (by rw [halk]; rfl)]
          exact hnodup
        have hsome2 : ∀ p ∈ rest, isElement p = true →
            (alookup (firstElem p) (upsert (firstElem pentry) (n + 1) ec)).isSome
              = true := by
          intro p hp h
          rw [alookup_upsert]
          by_cases hq : firstElem pentry = firstElem p
          · rw [if_pos hq]; rfl
          · rw [if_neg hq]; exact hsome p (List.mem_cons_of_mem _ hp) h
        rw [countElemental_spec rest _ hnodup2 hsome2]
        rw [upsert_succ_map (fun k => elemCntIn k rest) ec (firstElem pentry) n hnodup halk]
        congr 1
        refine List.map_congr_left fun kv _ => ?_
        by_cases hq : kv.1 = firstElem pentry
        · rw [if_pos hq]
          have : elemCntIn kv.1 (pentry :: rest) = elemCntIn kv.1 rest + 1 := by
            simp [elemCntIn, List.filter_cons, hel, hq.symm]
          rw [this]
        · rw [if_neg hq]
          have : elemCntIn kv.1 (pentry :: rest) = elemCntIn kv.1 rest := by
            have hne : (firstElem pentry == kv.1) = false := by
              simp only [beq_eq_false_iff_ne, ne_eq]
              exact fun h => hq h.symm
            simp [elemCntIn, List.filter_cons, hel, hne]
          rw [this]

theorem foldl_fakes (ec : List (String × ℕ)) :
    ∀ acc : List PEntry,
    ec.foldl (fun acc kv => if kv.2 = 0 then acc ++ [mkFake kv.1] else acc) acc
      = acc ++ (ec.filter (fun kv => kv.2 == 0)).map (fun kv => mkFake kv.1) := by
  induction ec with
  | nil => intro acc; simp
  | cons hd tl ih =>
    intro acc
    simp only [List.foldl_cons, List.filter_cons]
    by_cases h : hd.2 = 0
    · have hb : (hd.2 == 0) = true := by simp [h]
      simp only [h, if_true, hb, List.map_cons, ih]
      simp
    · have hb : (hd.2 == 0) = false := by simp [h]
      simp only [h, if_false, hb, ih]
      simp

theorem elemCntIn_eq_zero (elt : String) : ∀ l : List PEntry,
    (elemCntIn elt l == 0) = !(hasElemEntry elt l)
  | [] => rfl
  | hd :: tl => by
    cases h : (isElement hd && (firstElem hd == elt)) with
    | true =>
      simp [elemCntIn, hasElemEntry, List.filter_cons, h]
    | false =>
      have := elemCntIn_eq_zero elt tl
      simp [elemCntIn, hasElemEntry, List.filter_cons, h] at this ⊢
      exact this

theorem alookup_map_zero (k : String) : ∀ l : List String,
    k ∈ l → (alookup k (l.map (fun elt => (elt, (0 : ℕ))))).isSome = true
  | [], h => absurd h (List.not_mem_nil k)
  | e :: tl, h => by
    by_cases he : e = k
    · simp [alookup, he]
    · have hk : k ∈ tl := by
        rcases List.mem_cons.mp h with h1 | h1
        · exact absurd h1.symm he
        · exact h1
      simp only [List.map_cons, alookup, he, if_neg, if_false]
      exact alookup_map_zero k tl hk

/-- C10: in the locally-sourced pipeline with `include_mp_entries` false,
after the bulk entry is appended, every element of the bulk composition
that has no pure-element entry among the loaded entries gets a synthetic
single-atom entry of total energy 0 appended before solving (provided no
loaded elemental entry lies outside the bulk composition, which would
raise a KeyError at the counting step). -/
theorem addFakeElementals_spec (bulk_ce : PEntry) (personal_entry_list : List PEntry)
    (hclosed : ∀ p ∈ personal_entry_list ++ [bulk_ce], isElement p = true →
        firstElem p ∈ bulk_ce.elems.dedup) :
    addFakeElementals bulk_ce personal_entry_list
      = Except.ok ((personal_entry_list ++ [bulk_ce])
          ++ (bulk_ce.elems.dedup.filter
              (fun elt => !(hasElemEntry elt (personal_entry_list ++ [bulk_ce])))).map
            mkFake) := by
  rw [show addFakeElementals bulk_ce personal_entry_list
      = (match countElemental (bulk_ce.elems.dedup.map (fun elt => (elt, (0 : ℕ))))
            (personal_entry_list ++ [bulk_ce]) with
        | Except.error s => Except.error s
        | Except.ok eltcount =>
            Except.ok (eltcount.foldl
              (fun acc kv => if kv.2 = 0 then acc ++ [mkFake kv.1] else acc)
              (personal_entry_list ++ [bulk_ce]))) from rfl]
  have hkeys : keysOf (bulk_ce.elems.dedup.map (fun elt => (elt, (0 : ℕ))))
      = bulk_ce.elems.dedup := by
    unfold keysOf
    rw [List.map_map]
    have hid : ((fun x : String × ℕ => x.1) ∘ fun elt : String => (elt, (0 : ℕ))) = id :=
      funext fun _ => rfl
    rw [hid, List.map_id]
  have hnodup : (keysOf (bulk_ce.elems.dedup.map (fun elt => (elt, (0 : ℕ))))).Nodup := by
    rw [hkeys]
    exact List.nodup_dedup _
  have hsome : ∀ p ∈ personal_entry_list ++ [bulk_ce], isElement p = true →
      (alookup (firstElem p)
        (bulk_ce.elems.dedup.map (fun elt => (elt, (0 : ℕ))))).isSome = true :=
    fun p hp h => alookup_map_zero _ _ (hclosed p hp h)
  rw [countElemental_spec (personal_entry_list ++ [bulk_ce]) _ hnodup hsome]
  simp only [foldl_fakes]
  congr 1
  rw [List.map_map]
  have hcomp : ((fun kv : String × ℕ => (kv.1, kv.2 + elemCntIn kv.1
      (personal_entry_list ++ [bulk_ce]))) ∘ fun elt => (elt, (0 : ℕ)))
      = fun elt => (elt, elemCntIn elt (personal_entry_list ++ [bulk_ce])) := by
    funext elt
    simp
  rw [hcomp, List.filter_map, List.map_map]
  have hpred : ((fun kv : String × ℕ => kv.2 == 0) ∘
      fun elt => (elt, elemCntIn elt (personal_entry_list ++ [bulk_ce])))
      = fun elt => !(hasElemEntry elt (personal_entry_list ++ [bulk_ce])) := by
    funext elt
    exact elemCntIn_eq_zero elt (personal_entry_list ++ [bulk_ce])
  rw [hpred]
  rfl

/-- Witness for C10: a binary bulk `AB2` with one loaded pure-`A` entry
gets a fake zero-energy `B` entry appended (but no fake `A`). -/
theorem addFakeElementals_spec_witness :
    addFakeElementals ⟨["A", "B"], -4⟩ [⟨["A"], -1⟩]
      = Except.ok (([⟨["A"], -1⟩] ++ [⟨["A", "B"], -4⟩])
          ++ ((⟨["A", "B"], -4⟩ : PEntry).elems.dedup.filter
              (fun elt => !(hasElemEntry elt ([⟨["A"], -1⟩] ++ [⟨["A", "B"], -4⟩])))).map
            mkFake) :=
  addFakeElementals_spec ⟨["A", "B"], -4⟩ [⟨["A"], -1⟩] (by decide)

/-! ## FacetChemPotSolver postcondition

The per-facet linear solve is performed by pymatgen's
`PhaseDiagram.get_all_chempots`, outside this repository;
`ChemPotAnalyzer.get_chempots_from_pd` (lines 38-57) only forwards to
it.  The solver is therefore modelled from the spec. -/

/-- Modelled from the spec: the per-facet solver of the
FacetChemPotSolver component (the pymatgen `get_all_chempots`
collaborator invoked by `get_chempots_from_pd`, whose implementation is
missing from this repository).  One equation per phase of the facet,
the sum over elements e of n_i(e) * mu(e) equalling E_i; the square
system is solved exactly when nonsingular, and a singular facet fails
(DEGENERATE_FACET, modelled as `none`).  Row i of `A` holds phase i's
stoichiometric counts and `energies i` its total energy. -/
def solveFacetSystem (n : ℕ) (A : Matrix (Fin n) (Fin n) ℚ)
    (energies : Fin n → ℚ) : Option (Fin n → ℚ) :=
  if A.det = 0 then none
  else some ((A.det⁻¹ • A.adjugate).mulVec energies)

/-- C9: whenever the solver returns a chemical-potential vector for a
facet, substituting it into each phase equation of that facet reproduces
that phase's energy within 1e-6 (in fact exactly). -/
theorem solveFacetSystem_postcondition (n : ℕ) (A : Matrix (Fin n) (Fin n) ℚ)
    (energies : Fin n → ℚ) (mu : Fin n → ℚ)
    (h : solveFacetSystem n A energies = some mu) (i : Fin n) :
    |(∑ e, A i e * mu e) - energies i| ≤ 1 / 1000000 := by
  unfold solveFacetSystem at h
  by_cases hd : A.det = 0
  · rw [if_pos hd] at h
    cases h
  · rw [if_neg hd] at h
    have hmu : mu = (A.det⁻¹ • A.adjugate).mulVec energies := (Option.some.inj h).symm
    have hexact : A.mulVec mu = energies := by
      rw [hmu, Matrix.mulVec_mulVec, Matrix.mul_smul, Matrix.mul_adjugate,
        smul_smul, inv_mul_cancel₀ hd, one_smul, Matrix.one_mulVec]
    have hsum : (∑ e, A i e * mu e) = A.mulVec mu i := by
      simp [Matrix.mulVec, Matrix.dotProduct]
    rw [hsum, hexact]
    simp

/-- Witness for C9 on the one-phase facet `2·mu(A) = 4`. -/
theorem solveFacetSystem_postcondition_witness :
    |(∑ e, (!![(2 : ℚ)]) 0 e * (![2]) e) - (![(4 : ℚ)]) 0| ≤ 1 / 1000000 :=
  solveFacetSystem_postcondition 1 !![(2 : ℚ)] ![4] ![2]
    (by
      unfold solveFacetSystem
      rw [if_neg (by rw [Matrix.det_fin_one_of]; norm_num)]
      congr 1
      funext i
      fin_cases i
      rw [Matrix.det_fin_one_of, Matrix.adjugate_fin_one]
      simp [Matrix.mulVec, Matrix.dotProduct]
      norm_num) 0

end PyCDT
